import Mathlib

/-!
Verification development for the particle-population engine of
`create_atoms.cpp` (LAMMPS `CreateAtoms` command).

The C++ routines are shallowly embedded: `double` coordinates become ℚ,
machine loop counters become ℕ with the explicit 32-bit overflow test the
code performs, per-rank MPI state becomes explicit lists indexed by rank,
and the MPI collectives (`MPI_Allreduce` with SUM/MAX, `MPI_Scan`) become
folds and finite sums over the rank order.  External collaborator services
(the lattice coordinate transform `lattice2box`, `Domain::x2lamda`, the
region membership test, the equal-style variable test, and the periodic
minimum-image distance) are parameters of the embedding, matching the
interfaces the source consumes.
-/

namespace CreateAtomsModel

/-- Embedding of a C `double[3]` position vector. -/
abbrev V3 : Type := ℚ × ℚ × ℚ

/-- Largest 32-bit signed integer, `MAXSMALLINT` in LAMMPS. -/
def MAXSMALLINT : ℕ := 2147483647

/-- The three actions of `CreateAtoms::loop_lattice` (enum at the top of
`create_atoms.cpp`): count only, insert every accepted site, insert the
accepted sites whose subset flag is set. -/
inductive Action where
  | COUNT
  | INSERT
  | INSERT_SELECTED
deriving DecidableEq

/-- A lattice site: unit-cell index triple `(i, j, k)` plus basis index `m`. -/
abbrev Site : Type := ℤ × ℤ × ℤ × ℕ

/-- Inclusive integer range `[lo, hi]`, empty when `hi < lo`; the index set of
a C loop `for (i = lo; i <= hi; i++)`. -/
def intRange (lo hi : ℤ) : List ℤ :=
  (List.range (hi + 1 - lo).toNat).map (fun n => lo + n)

/-- Enumeration order of `CreateAtoms::loop_lattice`: `k` outermost, then `j`,
then `i`, then the basis index `m` innermost. -/
def lattice_order (ilo ihi jlo jhi klo khi : ℤ) (nbasis : ℕ) : List Site :=
  (intRange klo khi).flatMap fun k =>
    (intRange jlo jhi).flatMap fun j =>
      (intRange ilo ihi).flatMap fun i =>
        (List.range nbasis).map fun m => (i, j, k, m)

/-- Sub-box rejection test of `loop_lattice` (and of `add_single` and
`add_random`, where it appears negated): reject when on some axis
`coord < sublo` or `coord >= subhi`. -/
def subbox_reject (sublo subhi c : V3) : Bool :=
  decide (c.1 < sublo.1) || decide (subhi.1 ≤ c.1) ||
  decide (c.2.1 < sublo.2.1) || decide (subhi.2.1 ≤ c.2.1) ||
  decide (c.2.2 < sublo.2.2) || decide (subhi.2.2 ≤ c.2.2)

/-- Ownership predicate: the candidate position is in this rank's sub-box. -/
def in_subbox (sublo subhi c : V3) : Bool := !(subbox_reject sublo subhi c)

/-- Per-rank context of one `loop_lattice` pass: the loop bounds, the external
lattice-to-box transform applied to each site, the optional region filter, the
optional variable filter, and the sub-box bounds in the decomposition's
coordinate system (`x2lamda`-mapped when triclinic). -/
structure LoopCtx where
  ilo : ℤ
  ihi : ℤ
  jlo : ℤ
  jhi : ℤ
  klo : ℤ
  khi : ℤ
  nbasis : ℕ
  l2b : Site → V3
  styleRegion : Bool
  region_match : V3 → Bool
  varflag : Bool
  vartest : V3 → Bool
  triclinic : Bool
  x2lamda : V3 → V3
  sublo : V3
  subhi : V3

/-- The site list a `loop_lattice` pass walks, in source order. -/
def LoopCtx.sites (ctx : LoopCtx) : List Site :=
  lattice_order ctx.ilo ctx.ihi ctx.jlo ctx.jhi ctx.klo ctx.khi ctx.nbasis

/-- Decomposition-system coordinates of a box position. -/
def LoopCtx.coord (ctx : LoopCtx) (x : V3) : V3 :=
  if ctx.triclinic then ctx.x2lamda x else x

/-- A site passes when the region filter (if any), the variable filter
(if any), and the sub-box ownership test all accept it; this is the chain of
`continue` statements in the body of `loop_lattice`. -/
def accept (ctx : LoopCtx) (s : Site) : Bool :=
  let x := ctx.l2b s
  (!ctx.styleRegion || ctx.region_match x) &&
  (!ctx.varflag || ctx.vartest x) &&
  in_subbox ctx.sublo ctx.subhi (ctx.coord x)

/-- Observable state of one `loop_lattice` pass.  `nlatt` and
`nlatt_overflow` are the counter and overflow flag of the source; `inserted`
records the positions handed to `create_atom`/`add_molecule`; `accessed`
records every index read from the subset flag array; `seqs` is a ghost trace
pairing each accepted site with its sequence number at acceptance time. -/
structure LoopOut where
  nlatt : ℕ
  nlatt_overflow : Bool
  inserted : List V3
  accessed : List ℕ
  seqs : List (Site × ℕ)
deriving DecidableEq

/-- Initial state of a pass (`nlatt = 0`, flag clear). -/
def LoopOut.start : LoopOut := ⟨0, false, [], [], []⟩

/-- Body of `loop_lattice` for one site: apply the filters, then perform the
action, then increment `nlatt` exactly once for every accepted site. -/
def loop_body (ctx : LoopCtx) (act : Action) (flag : List Bool)
    (st : LoopOut) (s : Site) : LoopOut :=
  if accept ctx s then
    let st1 := { st with seqs := st.seqs ++ [(s, st.nlatt)] }
    let st2 :=
      match act with
      | Action.INSERT => { st1 with inserted := st1.inserted ++ [ctx.l2b s] }
      | Action.COUNT =>
          if st1.nlatt = MAXSMALLINT then { st1 with nlatt_overflow := true } else st1
      | Action.INSERT_SELECTED =>
          let st' := { st1 with accessed := st1.accessed ++ [st1.nlatt] }
          if flag.getD st'.nlatt false then
            { st' with inserted := st'.inserted ++ [ctx.l2b s] }
          else st'
    { st2 with nlatt := st2.nlatt + 1 }
  else st

/-- One full `loop_lattice` pass. -/
def loop_lattice (ctx : LoopCtx) (act : Action) (flag : List Bool) : LoopOut :=
  ctx.sites.foldl (loop_body ctx act flag) LoopOut.start

/-- Ghost sequence trace: each site of the list passing `acc`, paired with the
value of the running counter when it is accepted, the counter starting at `n`.
This expression does not mention the action. -/
def seq_trace (acc : Site → Bool) : List Site → ℕ → List (Site × ℕ)
  | [], _ => []
  | s :: L, n => if acc s then (s, n) :: seq_trace acc L (n + 1) else seq_trace acc L n

/-- Integer flag a rank contributes to the SUM reduction after the COUNT pass
of `add_lattice` (the member `nlatt_overflow`, 0 or 1). -/
def overflow_flag (ctx : LoopCtx) : ℕ :=
  if (loop_lattice ctx Action.COUNT []).nlatt_overflow then 1 else 0

/-- The `MPI_Allreduce(&nlatt_overflow, &overflow, 1, MPI_INT, MPI_SUM, world)`
of `add_lattice` followed by the fatal-error test `if (overflow) error->all`. -/
def overflow_error (ranks : List LoopCtx) : Bool :=
  decide ((ranks.map overflow_flag).sum ≠ 0)

/-- Concrete single-rank context used by the evaluation witnesses: two unit
cells on the i axis, one basis point, no filters, orthogonal sub-box
`[0,1)³` containing the (constant) mapped position of every site. -/
def ctxW : LoopCtx where
  ilo := 0
  ihi := 1
  jlo := 0
  jhi := 0
  klo := 0
  khi := 0
  nbasis := 1
  l2b := fun _ => ((0 : ℚ), (0 : ℚ), (0 : ℚ))
  styleRegion := false
  region_match := fun _ => true
  varflag := false
  vartest := fun _ => true
  triclinic := false
  x2lamda := id
  sublo := ((0 : ℚ), (0 : ℚ), (0 : ℚ))
  subhi := ((1 : ℚ), (1 : ℚ), (1 : ℚ))

/-- Truncation toward zero, the conversion behavior of C++
`static_cast<int>` applied to a `double`. -/
def c_trunc (q : ℚ) : ℤ := if 0 ≤ q then ⌊q⌋ else ⌈q⌉

/-- Loop lower bound of `add_lattice`:
`ilo = static_cast<int>(xmin) - 1`, with the extra decrement
`if (xmin < 0.0) ilo--`; the same expression computes `jlo` and `klo`. -/
def ilo_of (xmin : ℚ) : ℤ := (c_trunc xmin - 1) - (if xmin < 0 then 1 else 0)

/-- Loop upper bound of `add_lattice`: `ihi = static_cast<int>(xmax) + 1`;
the same expression computes `jhi` and `khi`. -/
def ihi_of (xmax : ℚ) : ℤ := c_trunc xmax + 1

/-- Placement styles of the command (enum BOX, REGION, SINGLE, RANDOM). -/
inductive Style where
  | BOX
  | REGION
  | SINGLE
  | RANDOM
deriving DecidableEq

/-- Outputs of the units scaling setup block. -/
structure ScaledParams where
  xone : V3
  overlap : ℚ

/-- Embedding of the scaling block of `CreateAtoms::command`: styles BOX and
REGION leave the parameters alone there; otherwise, when `scaleflag == 1`
(lattice units, the default), `xone` is scaled per axis while `overlap` is
multiplied by the x lattice spacing alone. -/
def scale_setup (style : Style) (scaleflag : Bool)
    (xlattice ylattice zlattice : ℚ) (xone : V3) (overlap : ℚ) : ScaledParams :=
  if style = Style.BOX ∨ style = Style.REGION then ⟨xone, overlap⟩
  else if scaleflag then
    ⟨(xone.1 * xlattice, xone.2.1 * ylattice, xone.2.2 * zlattice),
      overlap * xlattice⟩
  else ⟨xone, overlap⟩

/-- Per-axis lower-bound epsilon adjustment of the setup block of
`CreateAtoms::command`: the rank at the low edge of a periodic axis
(`myloc == 0`) lowers `sublo` by epsilon. -/
def adj_sublo (xperiodic : Bool) (myloc : ℕ) (lo eps : ℚ) : ℚ :=
  if xperiodic && (myloc == 0) then lo - eps else lo

/-- Per-axis upper-bound epsilon adjustment: the rank at the high edge of a
periodic axis (`myloc == procgrid - 1`) lowers `subhi` by two epsilon. -/
def adj_subhi (xperiodic : Bool) (myloc procgrid : ℕ) (hi eps : ℚ) : ℚ :=
  if xperiodic && (myloc == procgrid - 1) then hi - 2 * eps else hi

/-- One axis of the domain decomposition: periodic flag, rank count along the
axis, decomposition cut points (rank `p` owning `[cuts p, cuts (p+1))` before
adjustment), and the epsilon used for the adjustment. -/
structure AxisDecomp where
  per : Bool
  n : ℕ
  cuts : ℕ → ℚ
  eps : ℚ

/-- Adjusted per-axis lower bound stored for a rank at grid position `p`. -/
def AxisDecomp.lo (d : AxisDecomp) (p : ℕ) : ℚ := adj_sublo d.per p (d.cuts p) d.eps

/-- Adjusted per-axis upper bound stored for a rank at grid position `p`. -/
def AxisDecomp.hi (d : AxisDecomp) (p : ℕ) : ℚ :=
  adj_subhi d.per p d.n (d.cuts (p + 1)) d.eps

/-- Adjusted sub-box lower corner of the rank at grid position `p`. -/
def grid_sublo (dx dy dz : AxisDecomp) (p : ℕ × ℕ × ℕ) : V3 :=
  (dx.lo p.1, dy.lo p.2.1, dz.lo p.2.2)

/-- Adjusted sub-box upper corner of the rank at grid position `p`. -/
def grid_subhi (dx dy dz : AxisDecomp) (p : ℕ × ℕ × ℕ) : V3 :=
  (dx.hi p.1, dy.hi p.2.1, dz.hi p.2.2)

/-- Ownership test of the rank at grid position `p` with the adjusted
bounds, as run by `loop_lattice`. -/
def grid_owns (dx dy dz : AxisDecomp) (p : ℕ × ℕ × ℕ) (c : V3) : Bool :=
  in_subbox (grid_sublo dx dy dz p) (grid_subhi dx dy dz p) c

/-- Concrete axis decomposition used by the evaluation witnesses: two ranks
along a periodic axis, integer cut points, epsilon zero. -/
def axW : AxisDecomp where
  per := true
  n := 2
  cuts := fun p => (p : ℚ)
  eps := 0

/-- Lamda-coordinate clamp of `add_single` under `remapflag`: a coordinate of
a periodic dimension outside `[0,1)` is reset to exactly 0. -/
def remap_lamda (per : Bool) (l : ℚ) : ℚ :=
  if per && (decide (l < 0) || decide (1 ≤ l)) then 0 else l

/-- The clamp applied to all three lamda coordinates. -/
def remap3 (xper yper zper : Bool) (lam : V3) : V3 :=
  (remap_lamda xper lam.1, remap_lamda yper lam.2.1, remap_lamda zper lam.2.2)

/-- Unadjusted sub-box lower corner (style single skips the epsilon block). -/
def plain_sublo (dx dy dz : AxisDecomp) (p : ℕ × ℕ × ℕ) : V3 :=
  (dx.cuts p.1, dy.cuts p.2.1, dz.cuts p.2.2)

/-- Unadjusted sub-box upper corner. -/
def plain_subhi (dx dy dz : AxisDecomp) (p : ℕ × ℕ × ℕ) : V3 :=
  (dx.cuts (p.1 + 1), dy.cuts (p.2.1 + 1), dz.cuts (p.2.2 + 1))

/-- Ownership test of `add_single` for the rank at grid position `p`, with
the unadjusted lamda-space bounds. -/
def plain_owns (dx dy dz : AxisDecomp) (p : ℕ × ℕ × ℕ) (c : V3) : Bool :=
  in_subbox (plain_sublo dx dy dz p) (plain_subhi dx dy dz p) c

/-- Concrete single-rank-per-axis decomposition for the C10 witness. -/
def axU : AxisDecomp where
  per := true
  n := 1
  cuts := fun p => (p : ℚ)
  eps := 0

/-- Maximum pre-existing molecule identifier: the per-rank maximum over the
molecule array starting from 0, combined by `MPI_Allreduce(..., MPI_MAX, ...)`;
`pre` is the concatenation of every rank's pre-existing identifiers. -/
def maxmol_of (pre : List ℤ) : ℤ := pre.foldl max 0

/-- Inclusive `MPI_Scan` (sum) of the per-rank molecule-creation counts in
rank order, as received by rank `r`. -/
def scan_molcreate (molcreate : ℕ → ℕ) (r : ℕ) : ℕ :=
  ∑ s ∈ Finset.range (r + 1), molcreate s

/-- Exclusive prefix sum: creation counts of the ranks before `r`. -/
def excl_molcreate (molcreate : ℕ → ℕ) (r : ℕ) : ℕ :=
  ∑ s ∈ Finset.range r, molcreate s

/-- Identifier offset of rank `r`, the line
`moloffset = moloffset - molcreate + maxmol` after the scan. -/
def moloffset_of (maxmol : ℤ) (molcreate : ℕ → ℕ) (r : ℕ) : ℤ :=
  (scan_molcreate molcreate r : ℤ) - (molcreate r : ℤ) + maxmol

/-- Identifiers assigned by the stitching loop on one rank, both branches of
the assignment: when the template declares named sub-molecules
(`onemol->moleculeflag`), member `m` of a created molecule receives
`moloffset + onemol->molecule[m]` (here `molmap` lists those per-member
sub-molecule indices) and the offset then advances by `onemol->nmolecules`;
otherwise every member receives `moloffset + 1` and the offset advances by
one. -/
def assign_mol_ids (moleculeflag : Bool) (molmap : List ℤ) (nmolecules : ℤ)
    (off : ℤ) : ℕ → List ℤ
  | 0 => []
  | Nat.succ k =>
      (if moleculeflag then molmap.map (fun v => off + v) else [off + 1]) ++
        assign_mol_ids moleculeflag molmap nmolecules
          (off + if moleculeflag then nmolecules else 1) k

/-- Identifier block assigned by rank `r`. -/
def rank_mol_ids (moleculeflag : Bool) (molmap : List ℤ) (nmolecules : ℤ)
    (maxmol : ℤ) (molcreate : ℕ → ℕ) (r : ℕ) : List ℤ :=
  assign_mol_ids moleculeflag molmap nmolecules
    (moloffset_of maxmol molcreate r) (molcreate r)

/-- Tags of the members of one created molecule whose first member carries
tag `tagFirst`.  Modelled from the spec: `atom->tag_extend` (outside this
source file) gives newly created local atoms consecutive tags, and the
stitcher assumes created entities are contiguous per molecule and in template
order within a rank's local storage. -/
def member_tags (tagFirst : ℤ) (natoms : ℕ) : List ℤ :=
  (List.range natoms).map (fun (m : ℕ) => tagFirst + (m : ℤ))

/-- Rebasing of one bonded-topology reference, the update
`bond_atom[ilocal][j] += offset` with `offset = tag[ilocal] - 1` where
`ilocal` is the molecule's first member. -/
def rebased_ref (tagFirst ref : ℤ) : ℤ := ref + (tagFirst - 1)

/-- Per-rank state of `add_random`: the rank's sub-box bounds and the
positions of its locally stored atoms (`atom->x` over `atom->nlocal`). -/
abbrev RankSt : Type := (V3 × V3) × List V3

/-- Local too-close flag of one rank (an `int` 0/1 in the source): 1 exactly
when some locally stored atom lies within the squared threshold of the
candidate, the loop with the early `break`. -/
def local_reject (dsq : V3 → V3 → ℚ) (odistsq : ℚ) (xone : V3)
    (atoms : List V3) : ℕ :=
  if atoms.any (fun a => decide (dsq xone a < odistsq)) then 1 else 0

/-- The collective
`MPI_Allreduce(&reject, &reject_any, 1, MPI_INT, MPI_MAX, world)`
combining the per-rank flags. -/
def reject_any (dsq : V3 → V3 → ℚ) (odistsq : ℚ) (xone : V3)
    (ranks : List RankSt) : ℕ :=
  (ranks.map (fun r => local_reject dsq odistsq xone r.2)).foldl max 0

/-- Squared overlap threshold: the user distance, expanded by the molecule
template radius in molecule mode, then squared (`odist*odist`). -/
def odistsq_of (overlap molradius : ℚ) (isMolecule : Bool) : ℚ :=
  (if isMolecule then overlap + molradius else overlap) *
    (if isMolecule then overlap + molradius else overlap)

/-- Shared context of one `add_random` run: the synchronized uniform draw
stream (identical on every rank because the generator is seeded identically),
the region and variable filters, the triclinic box test data, and the overlap
parameters. -/
structure RandomCtx where
  draws : ℕ → V3
  use_region : Bool
  region_match : V3 → Bool
  varflag : Bool
  vartest : V3 → Bool
  triclinic : Bool
  x2lamda : V3 → V3
  boxlo : V3
  boxhi : V3
  overlapflag : Bool
  dsq : V3 → V3 → ℚ
  odistsq : ℚ

/-- Run state of `add_random`: number of draws consumed, the per-rank stored
atoms, a ghost list of every atom copy created during this command across all
ranks, and the successful-insertion counter `ninsert`. -/
structure RanState where
  idraw : ℕ
  ranks : List RankSt
  created : List V3
  ninsert : ℕ

/-- Bounds of the decomposition, unchanged by atom creation. -/
def RanState.bounds (st : RanState) : List (V3 × V3) :=
  st.ranks.map (fun r => r.1)

/-- Creation of one accepted atom: `ninsert` increments on every rank, and
each rank whose sub-box contains the decomposition-space coordinate appends
the real-space position to its local store (`create_atom`/`add_molecule`). -/
def insert_atom (xone coord : V3) (st : RanState) : RanState :=
  { st with
      ninsert := st.ninsert + 1,
      ranks := st.ranks.map
        (fun r => if in_subbox r.1.1 r.1.2 coord then (r.1, r.2 ++ [xone]) else r),
      created := st.created ++
        st.ranks.filterMap
          (fun r => if in_subbox r.1.1 r.1.2 coord then some xone else none) }

/-- One try of the `while (ntry < maxtry)` loop: draw a candidate, apply the
region filter, the variable filter, the triclinic global-box test, then the
overlap consensus; on success the atom is created. -/
def try_once (C : RandomCtx) (st : RanState) : RanState × Bool :=
  let xone := C.draws st.idraw
  let st1 : RanState := { st with idraw := st.idraw + 1 }
  if C.use_region && !(C.region_match xone) then (st1, false)
  else if C.varflag && !(C.vartest xone) then (st1, false)
  else
    let coord := if C.triclinic then C.x2lamda xone else xone
    if C.triclinic && !(in_subbox C.boxlo C.boxhi coord) then (st1, false)
    else if C.overlapflag && decide (reject_any C.dsq C.odistsq xone st1.ranks ≠ 0)
    then (st1, false)
    else (insert_atom xone coord st1, true)

/-- The retry loop: up to `maxtry` tries, stopping at the first success;
exhausting the budget skips this insertion without failing the run. -/
def attempt (C : RandomCtx) : ℕ → RanState → RanState
  | 0, st => st
  | Nat.succ fuel, st =>
    if (try_once C st).2 then (try_once C st).1
    else attempt C fuel (try_once C st).1

/-- The outer loop over the `nrandom` requested insertions. -/
def add_random (C : RandomCtx) (maxtry : ℕ) : ℕ → RanState → RanState
  | 0, st => st
  | Nat.succ n, st => add_random C maxtry n (attempt C maxtry st)

/-- Initial state of a run: no draws consumed, the pre-existing per-rank
atoms, nothing created yet. -/
def start_state (ranks0 : List RankSt) : RanState := ⟨0, ranks0, [], 0⟩

/-- The non-fatal shortfall warning of `add_random` (printed by rank 0):
issued exactly when fewer insertions succeeded than were requested. -/
def shortfall_warning (ninsert nrandom : ℕ) : Bool := decide (ninsert < nrandom)

/-- Concrete rank list for the random-placement witnesses: one rank owning
the unit box, no atoms stored yet. -/
def ranksW : List RankSt :=
  [((((0 : ℚ), (0 : ℚ), (0 : ℚ)), ((1 : ℚ), (1 : ℚ), (1 : ℚ))), [])]

/-- Concrete `add_random` context for the witnesses. -/
def randW : RandomCtx where
  draws := fun _ => ((0 : ℚ), (0 : ℚ), (0 : ℚ))
  use_region := false
  region_match := fun _ => true
  varflag := false
  vartest := fun _ => true
  triclinic := false
  x2lamda := id
  boxlo := ((0 : ℚ), (0 : ℚ), (0 : ℚ))
  boxhi := ((1 : ℚ), (1 : ℚ), (1 : ℚ))
  overlapflag := true
  dsq := fun _ _ => (0 : ℚ)
  odistsq := (0 : ℚ)

/-- Sub-box disjointness across ranks, stated on the decomposition bounds:
any point lies in at most one rank's half-open sub-box. -/
def at_most_one_owner (bounds : List (V3 × V3)) : Prop :=
  ∀ c : V3, bounds.countP (fun b => in_subbox b.1 b.2 c) ≤ 1

/-- Separation invariant carried through the run: all copies created so far
are pairwise at squared distance at least the threshold, and every created
copy is stored on some rank. -/
def Separated (C : RandomCtx) (st : RanState) : Prop :=
  List.Pairwise (fun a b => C.odistsq ≤ C.dsq a b) st.created ∧
  ∀ a ∈ st.created, ∃ r ∈ st.ranks, a ∈ r.2

/-- Full run invariant: the decomposition bounds never change and the
separation invariant holds. -/
def RunInv (C : RandomCtx) (bounds0 : List (V3 × V3)) (st : RanState) : Prop :=
  st.bounds = bounds0 ∧ Separated C st

lemma loop_body_nlatt (ctx : LoopCtx) (act : Action) (flag : List Bool)
    (st : LoopOut) (s : Site) :
    (loop_body ctx act flag st s).nlatt =
      if accept ctx s then st.nlatt + 1 else st.nlatt := by
  unfold loop_body
  by_cases h : accept ctx s
  · simp only [h, if_true]
    cases act <;> simp <;> split <;> rfl
  · simp [h]

lemma foldl_loop_body_nlatt (ctx : LoopCtx) (act : Action) (flag : List Bool) :
    ∀ (L : List Site) (st : LoopOut),
      (L.foldl (loop_body ctx act flag) st).nlatt =
        st.nlatt + L.countP (accept ctx) := by
  intro L
  induction L with
  | nil => intro st; simp
  | cons s L ih =>
    intro st
    simp only [List.foldl_cons, List.countP_cons, ih, loop_body_nlatt]
    by_cases h : accept ctx s <;> simp [h] <;> omega

/-- Final value of the running counter: the number of sites in enumeration
order passing all filters, whatever the action. -/
lemma loop_lattice_nlatt (ctx : LoopCtx) (act : Action) (flag : List Bool) :
    (loop_lattice ctx act flag).nlatt = ctx.sites.countP (accept ctx) := by
  unfold loop_lattice
  rw [foldl_loop_body_nlatt]
  simp [LoopOut.start]

lemma loop_body_seqs (ctx : LoopCtx) (act : Action) (flag : List Bool)
    (st : LoopOut) (s : Site) :
    (loop_body ctx act flag st s).seqs =
      if accept ctx s then st.seqs ++ [(s, st.nlatt)] else st.seqs := by
  unfold loop_body
  by_cases h : accept ctx s
  · simp only [h, if_true]
    cases act <;> simp <;> split <;> rfl
  · simp [h]

lemma foldl_loop_body_seqs (ctx : LoopCtx) (act : Action) (flag : List Bool) :
    ∀ (L : List Site) (st : LoopOut),
      (L.foldl (loop_body ctx act flag) st).seqs =
        st.seqs ++ seq_trace (accept ctx) L st.nlatt := by
  intro L
  induction L with
  | nil => intro st; simp [seq_trace]
  | cons s L ih =>
    intro st
    simp only [List.foldl_cons, ih, loop_body_seqs, loop_body_nlatt, seq_trace]
    by_cases h : accept ctx s <;> simp [h]

lemma loop_lattice_seqs (ctx : LoopCtx) (act : Action) (flag : List Bool) :
    (loop_lattice ctx act flag).seqs = seq_trace (accept ctx) ctx.sites 0 := by
  unfold loop_lattice
  rw [foldl_loop_body_seqs]
  simp [LoopOut.start]

lemma loop_body_overflow (ctx : LoopCtx) (flag : List Bool)
    (st : LoopOut) (s : Site) :
    (loop_body ctx Action.COUNT flag st s).nlatt_overflow =
      if accept ctx s then
        st.nlatt_overflow || decide (st.nlatt = MAXSMALLINT)
      else st.nlatt_overflow := by
  unfold loop_body
  by_cases h : accept ctx s
  · simp only [h, if_true]
    by_cases h2 : st.nlatt = MAXSMALLINT <;> simp [h2]
  · simp [h]

lemma decide_or_eq {p q r : Prop} [Decidable p] [Decidable q] [Decidable r]
    (h : (p ∨ q) ↔ r) : (decide p || decide q) = decide r := by
  by_cases hp : p
  · simp [hp, h.mp (Or.inl hp)]
  · by_cases hq : q
    · simp [hq, h.mp (Or.inr hq)]
    · have hr : ¬ r := fun hr => (h.mpr hr).elim hp hq
      simp [hp, hq, hr]

lemma foldl_loop_body_overflow (ctx : LoopCtx) (flag : List Bool) :
    ∀ (L : List Site) (st : LoopOut),
      (L.foldl (loop_body ctx Action.COUNT flag) st).nlatt_overflow =
        (st.nlatt_overflow ||
          decide (st.nlatt ≤ MAXSMALLINT ∧
            MAXSMALLINT < st.nlatt + L.countP (accept ctx))) := by
  intro L
  induction L with
  | nil =>
    intro st
    simp
  | cons s L ih =>
    intro st
    simp only [List.foldl_cons, ih, loop_body_overflow, loop_body_nlatt, List.countP_cons]
    by_cases h : accept ctx s
    · simp only [h, if_true, Bool.or_assoc]
      have he : ((st.nlatt = MAXSMALLINT) ∨
          (st.nlatt + 1 ≤ MAXSMALLINT ∧
            MAXSMALLINT < st.nlatt + 1 + L.countP (accept ctx))) ↔
          (st.nlatt ≤ MAXSMALLINT ∧
            MAXSMALLINT < st.nlatt + (L.countP (accept ctx) + 1)) := by
        omega
      rw [decide_or_eq he]
    · simp [h]

/-- The overflow flag of a COUNT pass is set exactly when the number of
accepted sites exceeds the 32-bit counter limit. -/
lemma loop_lattice_overflow (ctx : LoopCtx) (flag : List Bool) :
    (loop_lattice ctx Action.COUNT flag).nlatt_overflow =
      decide (MAXSMALLINT < ctx.sites.countP (accept ctx)) := by
  unfold loop_lattice
  rw [foldl_loop_body_overflow]
  simp [LoopOut.start]

lemma loop_body_accessed (ctx : LoopCtx) (flag : List Bool)
    (st : LoopOut) (s : Site) :
    (loop_body ctx Action.INSERT_SELECTED flag st s).accessed =
      if accept ctx s then st.accessed ++ [st.nlatt] else st.accessed := by
  unfold loop_body
  by_cases h : accept ctx s
  · simp only [h, if_true]
    split <;> rfl
  · simp [h]

lemma foldl_loop_body_accessed (ctx : LoopCtx) (flag : List Bool) :
    ∀ (L : List Site) (st : LoopOut),
      (L.foldl (loop_body ctx Action.INSERT_SELECTED flag) st).accessed =
        st.accessed ++ List.range' st.nlatt (L.countP (accept ctx)) := by
  intro L
  induction L with
  | nil => intro st; simp
  | cons s L ih =>
    intro st
    simp only [List.foldl_cons, ih, loop_body_accessed, loop_body_nlatt, List.countP_cons]
    by_cases h : accept ctx s
    · simp [h, List.range'_succ]
    · simp [h]

/-- Indices read from the subset-flag array during an INSERT_SELECTED pass:
exactly `0, 1, ..., n - 1` where `n` is the number of accepted sites. -/
lemma loop_lattice_accessed (ctx : LoopCtx) (flag : List Bool) :
    (loop_lattice ctx Action.INSERT_SELECTED flag).accessed =
      List.range' 0 (ctx.sites.countP (accept ctx)) := by
  unfold loop_lattice
  rw [foldl_loop_body_accessed]
  simp [LoopOut.start]

/-- C1: in `loop_lattice` the local running counter `nlatt` increments exactly
once per candidate (cell, basis) pair that passes the region filter, the
scalar-expression filter and the sub-box ownership test, regardless of whether
the action is COUNT, INSERT or INSERT_SELECTED; hence for identical inputs the
final counter value and the per-candidate sequence numbers (the ghost trace
`seqs`) are identical across a COUNT pass and a subsequent INSERT or
INSERT_SELECTED pass on the same rank. -/
theorem loop_lattice_action_independent (ctx : LoopCtx)
    (act1 act2 : Action) (flag1 flag2 : List Bool) :
    (loop_lattice ctx act1 flag1).nlatt = ctx.sites.countP (accept ctx) ∧
    (loop_lattice ctx act1 flag1).nlatt = (loop_lattice ctx act2 flag2).nlatt ∧
    (loop_lattice ctx act1 flag1).seqs = (loop_lattice ctx act2 flag2).seqs := by
  refine ⟨loop_lattice_nlatt ctx act1 flag1, ?_, ?_⟩
  · rw [loop_lattice_nlatt, loop_lattice_nlatt]
  · rw [loop_lattice_seqs, loop_lattice_seqs]

/-- C5: during the COUNT pass a 32-bit overflow of the per-rank site counter
sets the local flag while the pass still runs to completion (the final tally
is the full accepted-site count); afterwards the flags are summed across ranks
and the fatal error is raised exactly when at least one rank's flag is set. -/
theorem count_overflow_detect_reduce_raise (ranks : List LoopCtx) :
    (overflow_error ranks = true ↔
      ∃ ctx ∈ ranks, (loop_lattice ctx Action.COUNT []).nlatt_overflow = true) ∧
    (∀ ctx ∈ ranks,
      ((loop_lattice ctx Action.COUNT []).nlatt_overflow = true ↔
        MAXSMALLINT < ctx.sites.countP (accept ctx)) ∧
      (loop_lattice ctx Action.COUNT []).nlatt = ctx.sites.countP (accept ctx)) := by
  constructor
  · unfold overflow_error
    simp only [decide_eq_true_eq, ne_eq]
    rw [List.sum_eq_zero_iff]
    constructor
    · intro h
      by_contra hno
      push_neg at hno
      apply h
      intro x hx
      rcases List.mem_map.mp hx with ⟨ctx, hctx, rfl⟩
      have := hno ctx hctx
      unfold overflow_flag
      simp only [Bool.not_eq_true] at this
      simp [this]
    · rintro ⟨ctx, hctx, hflag⟩ hall
      have := hall (overflow_flag ctx) (List.mem_map.mpr ⟨ctx, hctx, rfl⟩)
      unfold overflow_flag at this
      simp [hflag] at this
  · intro ctx _
    refine ⟨?_, loop_lattice_nlatt ctx Action.COUNT []⟩
    rw [loop_lattice_overflow]
    simp

/-- Evaluation witness for C5 at a concrete one-rank input. -/
theorem count_overflow_detect_reduce_raise_witness :
    ((loop_lattice ctxW Action.COUNT []).nlatt_overflow = true ↔
      MAXSMALLINT < ctxW.sites.countP (accept ctxW)) ∧
    (loop_lattice ctxW Action.COUNT []).nlatt = ctxW.sites.countP (accept ctxW) :=
  (count_overflow_detect_reduce_raise [ctxW]).2 ctxW (List.mem_singleton.mpr rfl)

/-- C7: during the INSERT_SELECTED pass every index used to read the
subset-flag array is strictly below the array length when that length is the
site count established by a COUNT pass with identical inputs, because the
enumeration replays the same candidate sequence in the same order. -/
theorem insert_selected_access_in_bounds (ctx : LoopCtx) (flag : List Bool)
    (hlen : flag.length = (loop_lattice ctx Action.COUNT []).nlatt) :
    ∀ idx ∈ (loop_lattice ctx Action.INSERT_SELECTED flag).accessed,
      idx < flag.length := by
  intro idx hidx
  rw [loop_lattice_accessed] at hidx
  rw [hlen, loop_lattice_nlatt]
  have h := List.mem_range'_1.mp hidx
  omega

/-- Evaluation witness for C7: the concrete context has exactly two accepted
sites; the flag index 1 is read and lies within the array length two. -/
theorem insert_selected_access_in_bounds_witness :
    1 ∈ (loop_lattice ctxW Action.INSERT_SELECTED [true, false]).accessed ∧
    1 < (List.length [true, false]) :=
  ⟨by decide,
   insert_selected_access_in_bounds ctxW [true, false] (by decide) 1 (by decide)⟩

/-- C8: the integer loop bounds of `add_lattice` satisfy
`ilo ≤ floor(xmin) - 1` and `ihi ≥ floor(xmax) + 1` for every real bound, so
the loop's integer index box encloses the tight integer index box widened by
at least one cell in every direction, the extra decrement compensating for
truncation toward zero on negative minima. -/
theorem add_lattice_loop_bounds_enclose (xmin xmax : ℚ) :
    ilo_of xmin ≤ ⌊xmin⌋ - 1 ∧ ⌊xmax⌋ + 1 ≤ ihi_of xmax := by
  constructor
  · unfold ilo_of c_trunc
    by_cases h : xmin < 0
    · have h0 : ¬ (0 ≤ xmin) := not_le.mpr h
      have hc := Int.ceil_le_floor_add_one xmin
      simp only [h0, if_false, h, if_true]
      omega
    · have h0 : 0 ≤ xmin := not_lt.mp h
      simp [h, h0]
  · unfold ihi_of c_trunc
    by_cases h0 : 0 ≤ xmax
    · simp [h0]
    · have hc := Int.floor_le_ceil xmax
      simp only [h0, if_false]
      omega

/-- C9: with lattice distance units (`scaleflag = 1`, the default) and style
single or random, the overlap threshold actually used is the user value
multiplied by the x lattice spacing only — changing the y and z lattice
spacings does not change it — while with box units the user value is kept
unchanged. -/
theorem overlap_lattice_units_scaling (style : Style) (scaleflag : Bool)
    (xlattice ylattice zlattice ylattice2 zlattice2 : ℚ) (xone : V3)
    (overlap : ℚ) (h : style = Style.SINGLE ∨ style = Style.RANDOM) :
    (scaleflag = true →
      (scale_setup style scaleflag xlattice ylattice zlattice xone overlap).overlap
        = overlap * xlattice ∧
      (scale_setup style scaleflag xlattice ylattice zlattice xone overlap).overlap
        = (scale_setup style scaleflag xlattice ylattice2 zlattice2 xone overlap).overlap) ∧
    (scaleflag = false →
      (scale_setup style scaleflag xlattice ylattice zlattice xone overlap).overlap
        = overlap) := by
  have hbr : ¬ (style = Style.BOX ∨ style = Style.REGION) := by
    rcases h with h | h <;> subst h <;> simp
  constructor
  · intro hs
    subst hs
    simp [scale_setup, hbr]
  · intro hs
    subst hs
    simp [scale_setup, hbr]

/-- Evaluation witness for C9 at style random, lattice units, concrete
spacings. -/
theorem overlap_lattice_units_scaling_witness :
    (true = true →
      (scale_setup Style.RANDOM true 2 3 5 ((0 : ℚ), (0 : ℚ), (0 : ℚ)) 7).overlap
        = 7 * 2 ∧
      (scale_setup Style.RANDOM true 2 3 5 ((0 : ℚ), (0 : ℚ), (0 : ℚ)) 7).overlap
        = (scale_setup Style.RANDOM true 2 11 13 ((0 : ℚ), (0 : ℚ), (0 : ℚ)) 7).overlap) ∧
    (true = false →
      (scale_setup Style.RANDOM true 2 3 5 ((0 : ℚ), (0 : ℚ), (0 : ℚ)) 7).overlap
        = 7) :=
  overlap_lattice_units_scaling Style.RANDOM true 2 3 5 11 13
    ((0 : ℚ), (0 : ℚ), (0 : ℚ)) 7 (Or.inr rfl)

/-- Half-open characterization of the sub-box ownership test: the negation of
the rejection chain `coord < sublo || coord >= subhi` per axis is exactly
`sublo ≤ coord < subhi` on every axis. -/
lemma in_subbox_iff (sublo subhi c : V3) :
    in_subbox sublo subhi c = true ↔
      (sublo.1 ≤ c.1 ∧ c.1 < subhi.1) ∧
      (sublo.2.1 ≤ c.2.1 ∧ c.2.1 < subhi.2.1) ∧
      (sublo.2.2 ≤ c.2.2 ∧ c.2.2 < subhi.2.2) := by
  unfold in_subbox subbox_reject
  simp only [Bool.not_eq_true', Bool.or_eq_false_iff, decide_eq_false_iff_not,
    not_lt, not_le]
  constructor
  · rintro ⟨⟨⟨⟨⟨h1, h2⟩, h3⟩, h4⟩, h5⟩, h6⟩
    exact ⟨⟨h1, h2⟩, ⟨h3, h4⟩, ⟨h5, h6⟩⟩
  · rintro ⟨⟨h1, h2⟩, ⟨h3, h4⟩, ⟨h5, h6⟩⟩
    exact ⟨⟨⟨⟨⟨h1, h2⟩, h3⟩, h4⟩, h5⟩, h6⟩

lemma axis_hi_le_cuts (d : AxisDecomp) (heps : 0 ≤ d.eps) (p : ℕ) :
    d.hi p ≤ d.cuts (p + 1) := by
  unfold AxisDecomp.hi adj_subhi
  split
  · linarith
  · exact le_refl _

lemma axis_lo_eq (d : AxisDecomp) (p : ℕ) (hp : p ≠ 0) : d.lo p = d.cuts p := by
  unfold AxisDecomp.lo adj_sublo
  rw [if_neg]
  simp [hp]

lemma axis_disjoint (d : AxisDecomp) (heps : 0 ≤ d.eps)
    (hmono : ∀ a b : ℕ, a ≤ b → d.cuts a ≤ d.cuts b)
    (p q : ℕ) (hpq : p < q) (c : ℚ)
    (hp : d.lo p ≤ c ∧ c < d.hi p) (hq : d.lo q ≤ c ∧ c < d.hi q) : False := by
  have h1 : c < d.cuts (p + 1) := lt_of_lt_of_le hp.2 (axis_hi_le_cuts d heps p)
  have h2 : d.cuts (p + 1) ≤ d.cuts q := hmono _ _ hpq
  have h3 : d.lo q = d.cuts q := axis_lo_eq d q (by omega)
  rw [h3] at hq
  linarith [hq.1]

/-- C4: the sub-box ownership test is a closed-open box membership test — a
position is owned exactly when `sublo ≤ coord < subhi` holds on every axis
against the rank's stored bounds — and with the bound adjustment applied once
at setup (lower periodic edge lowered by epsilon, upper periodic edge lowered
by two epsilon) no position is owned by more than one rank of the grid,
whatever the nonnegative epsilon. -/
theorem subbox_half_open_exclusive (dx dy dz : AxisDecomp) (sublo subhi c : V3)
    (hex : 0 ≤ dx.eps) (hey : 0 ≤ dy.eps) (hez : 0 ≤ dz.eps)
    (hmx : ∀ a b : ℕ, a ≤ b → dx.cuts a ≤ dx.cuts b)
    (hmy : ∀ a b : ℕ, a ≤ b → dy.cuts a ≤ dy.cuts b)
    (hmz : ∀ a b : ℕ, a ≤ b → dz.cuts a ≤ dz.cuts b) :
    (in_subbox sublo subhi c = true ↔
      (sublo.1 ≤ c.1 ∧ c.1 < subhi.1) ∧
      (sublo.2.1 ≤ c.2.1 ∧ c.2.1 < subhi.2.1) ∧
      (sublo.2.2 ≤ c.2.2 ∧ c.2.2 < subhi.2.2)) ∧
    (∀ p q : ℕ × ℕ × ℕ, p ≠ q →
      ¬(grid_owns dx dy dz p c = true ∧ grid_owns dx dy dz q c = true)) := by
  refine ⟨in_subbox_iff sublo subhi c, ?_⟩
  rintro ⟨p0, p1, p2⟩ ⟨q0, q1, q2⟩ hpq ⟨hp, hq⟩
  rw [grid_owns, in_subbox_iff] at hp hq
  simp only [grid_sublo, grid_subhi] at hp hq
  rcases Nat.lt_trichotomy p0 q0 with h | h | h
  · exact axis_disjoint dx hex hmx p0 q0 h c.1 hp.1 hq.1
  · rcases Nat.lt_trichotomy p1 q1 with h1 | h1 | h1
    · exact axis_disjoint dy hey hmy p1 q1 h1 c.2.1 hp.2.1 hq.2.1
    · rcases Nat.lt_trichotomy p2 q2 with h2 | h2 | h2
      · exact axis_disjoint dz hez hmz p2 q2 h2 c.2.2 hp.2.2 hq.2.2
      · exact hpq (by simp [h, h1, h2])
      · exact axis_disjoint dz hez hmz q2 p2 h2 c.2.2 hq.2.2 hp.2.2
    · exact axis_disjoint dy hey hmy q1 p1 h1 c.2.1 hq.2.1 hp.2.1
  · exact axis_disjoint dx hex hmx q0 p0 h c.1 hq.1 hp.1

/-- Evaluation witness for C4 at the concrete decomposition. -/
theorem subbox_half_open_exclusive_witness :
    (in_subbox ((0 : ℚ), (0 : ℚ), (0 : ℚ)) ((1 : ℚ), (1 : ℚ), (1 : ℚ))
        ((0 : ℚ), (0 : ℚ), (0 : ℚ)) = true ↔
      (((0 : ℚ) ≤ (0 : ℚ) ∧ (0 : ℚ) < (1 : ℚ)) ∧
       ((0 : ℚ) ≤ (0 : ℚ) ∧ (0 : ℚ) < (1 : ℚ)) ∧
       ((0 : ℚ) ≤ (0 : ℚ) ∧ (0 : ℚ) < (1 : ℚ)))) ∧
    (∀ p q : ℕ × ℕ × ℕ, p ≠ q →
      ¬(grid_owns axW axW axW p ((0 : ℚ), (0 : ℚ), (0 : ℚ)) = true ∧
        grid_owns axW axW axW q ((0 : ℚ), (0 : ℚ), (0 : ℚ)) = true)) :=
  subbox_half_open_exclusive axW axW axW
    ((0 : ℚ), (0 : ℚ), (0 : ℚ)) ((1 : ℚ), (1 : ℚ), (1 : ℚ))
    ((0 : ℚ), (0 : ℚ), (0 : ℚ))
    (le_refl 0) (le_refl 0) (le_refl 0)
    (fun a b h => Nat.cast_le.mpr h)
    (fun a b h => Nat.cast_le.mpr h)
    (fun a b h => Nat.cast_le.mpr h)

lemma remap_lamda_mem (per : Bool) (l : ℚ) (hper : per = true) :
    0 ≤ remap_lamda per l ∧ remap_lamda per l < 1 := by
  subst hper
  unfold remap_lamda
  by_cases h0 : l < 0
  · simp [h0]
  · by_cases h1 : 1 ≤ l
    · simp [h1]
    · rw [if_neg]
      · exact ⟨not_lt.mp h0, not_le.mp h1⟩
      · simp [h0, h1]

lemma exists_cell (cuts : ℕ → ℚ) (c : ℚ) :
    ∀ n : ℕ, cuts 0 ≤ c → c < cuts n →
      ∃ p, p < n ∧ cuts p ≤ c ∧ c < cuts (p + 1) := by
  intro n
  induction n with
  | zero => intro hlo hhi; exact absurd hhi (not_lt.mpr hlo)
  | succ n ih =>
    intro hlo hhi
    by_cases hn : cuts n ≤ c
    · exact ⟨n, Nat.lt_succ_self n, hn, hhi⟩
    · rcases ih hlo (not_le.mp hn) with ⟨p, hp, h1, h2⟩
      exact ⟨p, Nat.lt_succ_of_lt hp, h1, h2⟩

lemma unique_cell (cuts : ℕ → ℚ)
    (hmono : ∀ a b : ℕ, a ≤ b → cuts a ≤ cuts b) (c : ℚ) (p q : ℕ)
    (hp : cuts p ≤ c ∧ c < cuts (p + 1)) (hq : cuts q ≤ c ∧ c < cuts (q + 1)) :
    p = q := by
  rcases Nat.lt_trichotomy p q with h | h | h
  · exact absurd (lt_of_le_of_lt (le_trans (hmono _ _ h) hq.1) hp.2) (lt_irrefl _)
  · exact h
  · exact absurd (lt_of_le_of_lt (le_trans (hmono _ _ h) hp.1) hq.2) (lt_irrefl _)

/-- C10: for single-style placement in a triclinic box with remapping, every
periodic-dimension lamda coordinate outside `[0,1)` is reset to 0 before the
ownership test, so the clamped position lies in the global fractional box on
periodic dimensions; when all dimensions are periodic and the per-axis
decompositions partition `[0,1]`, exactly one rank of the grid owns the
clamped position. -/
theorem single_remap_unique_owner (dx dy dz : AxisDecomp) (lam : V3)
    (hpx : dx.per = true) (hpy : dy.per = true) (hpz : dz.per = true)
    (hmx : ∀ a b : ℕ, a ≤ b → dx.cuts a ≤ dx.cuts b)
    (hmy : ∀ a b : ℕ, a ≤ b → dy.cuts a ≤ dy.cuts b)
    (hmz : ∀ a b : ℕ, a ≤ b → dz.cuts a ≤ dz.cuts b)
    (h0x : dx.cuts 0 = 0) (h1x : dx.cuts dx.n = 1)
    (h0y : dy.cuts 0 = 0) (h1y : dy.cuts dy.n = 1)
    (h0z : dz.cuts 0 = 0) (h1z : dz.cuts dz.n = 1) :
    ((0 ≤ (remap3 dx.per dy.per dz.per lam).1 ∧
        (remap3 dx.per dy.per dz.per lam).1 < 1) ∧
      (0 ≤ (remap3 dx.per dy.per dz.per lam).2.1 ∧
        (remap3 dx.per dy.per dz.per lam).2.1 < 1) ∧
      (0 ≤ (remap3 dx.per dy.per dz.per lam).2.2 ∧
        (remap3 dx.per dy.per dz.per lam).2.2 < 1)) ∧
    (∃! p : ℕ × ℕ × ℕ,
      (p.1 < dx.n ∧ p.2.1 < dy.n ∧ p.2.2 < dz.n) ∧
      plain_owns dx dy dz p (remap3 dx.per dy.per dz.per lam) = true) := by
  have hx := remap_lamda_mem dx.per lam.1 hpx
  have hy := remap_lamda_mem dy.per lam.2.1 hpy
  have hz := remap_lamda_mem dz.per lam.2.2 hpz
  refine ⟨⟨hx, hy, hz⟩, ?_⟩
  rcases exists_cell dx.cuts (remap_lamda dx.per lam.1) dx.n
      (h0x ▸ hx.1) (h1x ▸ hx.2) with ⟨p0, hp0, hc0⟩
  rcases exists_cell dy.cuts (remap_lamda dy.per lam.2.1) dy.n
      (h0y ▸ hy.1) (h1y ▸ hy.2) with ⟨p1, hp1, hc1⟩
  rcases exists_cell dz.cuts (remap_lamda dz.per lam.2.2) dz.n
      (h0z ▸ hz.1) (h1z ▸ hz.2) with ⟨p2, hp2, hc2⟩
  refine ⟨(p0, p1, p2), ⟨⟨hp0, hp1, hp2⟩, ?_⟩, ?_⟩
  · rw [plain_owns, in_subbox_iff]
    exact ⟨hc0, hc1, hc2⟩
  · rintro ⟨q0, q1, q2⟩ ⟨_, hq⟩
    rw [plain_owns, in_subbox_iff] at hq
    simp only [plain_sublo, plain_subhi, remap3] at hq
    have e0 := unique_cell dx.cuts hmx _ q0 p0 hq.1 hc0
    have e1 := unique_cell dy.cuts hmy _ q1 p1 hq.2.1 hc1
    have e2 := unique_cell dz.cuts hmz _ q2 p2 hq.2.2 hc2
    simp [e0, e1, e2]

/-- Evaluation witness for C10 at a concrete out-of-box lamda position. -/
theorem single_remap_unique_owner_witness :
    ((0 ≤ (remap3 axU.per axU.per axU.per ((2 : ℚ), (0 : ℚ), (0 : ℚ))).1 ∧
        (remap3 axU.per axU.per axU.per ((2 : ℚ), (0 : ℚ), (0 : ℚ))).1 < 1) ∧
      (0 ≤ (remap3 axU.per axU.per axU.per ((2 : ℚ), (0 : ℚ), (0 : ℚ))).2.1 ∧
        (remap3 axU.per axU.per axU.per ((2 : ℚ), (0 : ℚ), (0 : ℚ))).2.1 < 1) ∧
      (0 ≤ (remap3 axU.per axU.per axU.per ((2 : ℚ), (0 : ℚ), (0 : ℚ))).2.2 ∧
        (remap3 axU.per axU.per axU.per ((2 : ℚ), (0 : ℚ), (0 : ℚ))).2.2 < 1)) ∧
    (∃! p : ℕ × ℕ × ℕ,
      (p.1 < axU.n ∧ p.2.1 < axU.n ∧ p.2.2 < axU.n) ∧
      plain_owns axU axU axU p
        (remap3 axU.per axU.per axU.per ((2 : ℚ), (0 : ℚ), (0 : ℚ))) = true) :=
  single_remap_unique_owner axU axU axU ((2 : ℚ), (0 : ℚ), (0 : ℚ))
    rfl rfl rfl
    (fun a b h => Nat.cast_le.mpr h)
    (fun a b h => Nat.cast_le.mpr h)
    (fun a b h => Nat.cast_le.mpr h)
    (by simp [axU]) (by simp [axU]) (by simp [axU])
    (by simp [axU]) (by simp [axU]) (by simp [axU])

lemma mem_assign_mol_ids_false (molmap : List ℤ) (nmolecules : ℤ) :
    ∀ (n : ℕ) (off id : ℤ),
      id ∈ assign_mol_ids false molmap nmolecules off n ↔
        off < id ∧ id ≤ off + (n : ℤ) := by
  intro n
  induction n with
  | zero =>
    intro off id
    simp [assign_mol_ids]
  | succ k ih =>
    intro off id
    simp only [assign_mol_ids, Bool.false_eq_true, if_false,
      List.singleton_append, List.mem_cons, ih]
    omega

lemma nodup_assign_mol_ids_false (molmap : List ℤ) (nmolecules : ℤ) :
    ∀ (n : ℕ) (off : ℤ),
      (assign_mol_ids false molmap nmolecules off n).Nodup := by
  intro n
  induction n with
  | zero => intro off; simp [assign_mol_ids]
  | succ k ih =>
    intro off
    simp only [assign_mol_ids, Bool.false_eq_true, if_false,
      List.singleton_append, List.nodup_cons]
    refine ⟨?_, ih (off + 1)⟩
    intro hmem
    have := (mem_assign_mol_ids_false molmap nmolecules k (off + 1) (off + 1)).mp hmem
    omega

lemma assign_mol_ids_gt (moleculeflag : Bool) (molmap : List ℤ)
    (nmolecules : ℤ)
    (hmap : moleculeflag = true → ∀ v ∈ molmap, 1 ≤ v)
    (hnm : moleculeflag = true → 0 ≤ nmolecules) :
    ∀ (n : ℕ) (off id : ℤ),
      id ∈ assign_mol_ids moleculeflag molmap nmolecules off n → off < id := by
  intro n
  induction n with
  | zero =>
    intro off id h
    simp [assign_mol_ids] at h
  | succ k ih =>
    intro off id h
    rw [assign_mol_ids] at h
    by_cases hm : moleculeflag = true
    · rw [hm] at h
      simp only [if_true] at h
      rcases List.mem_append.mp h with h | h
      · rcases List.mem_map.mp h with ⟨v, hv, rfl⟩
        have := hmap hm v hv
        omega
      · rw [← hm] at h
        have h1 := ih (off + nmolecules) id h
        have h2 := hnm hm
        omega
    · rw [Bool.not_eq_true] at hm
      rw [hm] at h
      simp only [Bool.false_eq_true, if_false, List.singleton_append,
        List.mem_cons] at h
      rcases h with rfl | h
      · omega
      · rw [← hm] at h
        have h1 := ih (off + 1) id h
        omega

lemma foldl_max_init (l : List ℤ) : ∀ a : ℤ, a ≤ l.foldl max a := by
  induction l with
  | nil => intro a; exact le_refl a
  | cons x l ih =>
    intro a
    exact le_trans (le_max_left a x) (ih (max a x))

lemma foldl_max_mem (l : List ℤ) : ∀ a : ℤ, ∀ p ∈ l, p ≤ l.foldl max a := by
  induction l with
  | nil => simp
  | cons x l ih =>
    intro a p hp
    rcases List.mem_cons.mp hp with rfl | hp
    · exact le_trans (le_max_right a p) (foldl_max_init l (max a p))
    · exact ih (max a x) p hp

lemma excl_molcreate_mono (molcreate : ℕ → ℕ) (a b : ℕ) (h : a ≤ b) :
    excl_molcreate molcreate a ≤ excl_molcreate molcreate b := by
  unfold excl_molcreate
  exact Finset.sum_le_sum_of_subset (Finset.range_subset.mpr h)

lemma moloffset_eq_excl (maxmol : ℤ) (molcreate : ℕ → ℕ) (r : ℕ) :
    moloffset_of maxmol molcreate r = maxmol + (excl_molcreate molcreate r : ℤ) := by
  unfold moloffset_of scan_molcreate excl_molcreate
  rw [Finset.sum_range_succ]
  push_cast
  ring

lemma mem_rank_mol_ids_false (molmap : List ℤ) (nmolecules : ℤ)
    (maxmol : ℤ) (molcreate : ℕ → ℕ) (r : ℕ) (id : ℤ) :
    id ∈ rank_mol_ids false molmap nmolecules maxmol molcreate r ↔
      maxmol + (excl_molcreate molcreate r : ℤ) < id ∧
      id ≤ maxmol + (excl_molcreate molcreate (r + 1) : ℤ) := by
  unfold rank_mol_ids
  rw [mem_assign_mol_ids_false, moloffset_eq_excl]
  have h : excl_molcreate molcreate (r + 1)
      = excl_molcreate molcreate r + molcreate r := by
    unfold excl_molcreate
    exact Finset.sum_range_succ molcreate r
  omega

/-- C3 counterexample: with a template declaring two named sub-molecules
(`onemol->moleculeflag` set, `nmolecules = 2`, member sub-molecule indices 1
and 2), one molecule created on each of two ranks and no pre-existing
molecules, identifier 2 is assigned both by rank 0 and by rank 1: the scan
advances each rank's offset by `molcreate` only while every created molecule
consumes `nmolecules` identifiers, so the claimed cross-rank distinctness
fails. -/
theorem molecule_id_cross_rank_clash :
    (2 : ℤ) ∈ rank_mol_ids true [1, 2] 2 0 (fun _ => 1) 0 ∧
    (2 : ℤ) ∈ rank_mol_ids true [1, 2] 2 0 (fun _ => 1) 1 := by
  have h0 : moloffset_of 0 (fun _ => 1) 0 = 0 := by
    simp [moloffset_of, scan_molcreate]
  have h1 : moloffset_of 0 (fun _ => 1) 1 = 1 := by
    simp [moloffset_of, scan_molcreate, Finset.sum_range_succ]
  constructor
  · rw [rank_mol_ids, h0]
    simp [assign_mol_ids]
  · rw [rank_mol_ids, h1]
    simp [assign_mol_ids]

/-- C3 (amended): the identifier offset of each rank equals the global
maximum pre-existing molecule identifier plus the exclusive prefix sum of
the per-rank creation counts in rank order; every assigned identifier — in
either assignment branch, the template sub-molecule indices being at least
one — is strictly greater than the global maximum and than every
pre-existing identifier; when the template does not declare named
sub-molecules (`onemol->moleculeflag` unset), the identifier blocks are
duplicate-free within a rank and pairwise disjoint across ranks; and every
bonded-topology reference of a created molecule, rebased by the first
member's tag minus one, lands on a member tag of that same molecule. -/
theorem molecule_id_stitching (moleculeflag : Bool) (molmap : List ℤ)
    (nmolecules maxmol : ℤ) (molcreate : ℕ → ℕ) (pre : List ℤ)
    (natoms : ℕ) (tagFirst : ℤ)
    (hmap : moleculeflag = true → ∀ v ∈ molmap, 1 ≤ v)
    (hnm : moleculeflag = true → 0 ≤ nmolecules) :
    (∀ r : ℕ, moloffset_of maxmol molcreate r
        = maxmol + (excl_molcreate molcreate r : ℤ)) ∧
    (∀ r : ℕ, ∀ id ∈ rank_mol_ids moleculeflag molmap nmolecules maxmol
        molcreate r, maxmol < id) ∧
    (∀ p ∈ pre, ∀ r : ℕ, ∀ id ∈ rank_mol_ids moleculeflag molmap nmolecules
        (maxmol_of pre) molcreate r, p < id) ∧
    (moleculeflag = false →
      (∀ r s : ℕ, r ≠ s →
        ∀ id ∈ rank_mol_ids moleculeflag molmap nmolecules maxmol molcreate r,
          id ∉ rank_mol_ids moleculeflag molmap nmolecules maxmol molcreate s) ∧
      (∀ r : ℕ,
        (rank_mol_ids moleculeflag molmap nmolecules maxmol molcreate r).Nodup)) ∧
    (∀ ref : ℤ, 1 ≤ ref → ref ≤ (natoms : ℤ) →
        rebased_ref tagFirst ref ∈ member_tags tagFirst natoms) := by
  have hgt : ∀ (mm : ℤ) (r : ℕ) (id : ℤ),
      id ∈ rank_mol_ids moleculeflag molmap nmolecules mm molcreate r →
        mm < id := by
    intro mm r id hid
    have h := assign_mol_ids_gt moleculeflag molmap nmolecules hmap hnm
      (molcreate r) (moloffset_of mm molcreate r) id hid
    rw [moloffset_eq_excl] at h
    have : (0 : ℤ) ≤ (excl_molcreate molcreate r : ℤ) := Int.natCast_nonneg _
    omega
  refine ⟨moloffset_eq_excl maxmol molcreate,
    fun r id hid => hgt maxmol r id hid, ?_, ?_, ?_⟩
  · intro p hp r id hid
    have h1 : p ≤ maxmol_of pre := foldl_max_mem pre 0 p hp
    have h2 := hgt (maxmol_of pre) r id hid
    omega
  · rintro rfl
    constructor
    · intro r s hrs id hidr hids
      have hr := (mem_rank_mol_ids_false molmap nmolecules maxmol
        molcreate r id).mp hidr
      have hs := (mem_rank_mol_ids_false molmap nmolecules maxmol
        molcreate s id).mp hids
      rcases Nat.lt_or_ge r s with h | h
      · have := excl_molcreate_mono molcreate (r + 1) s h
        omega
      · have h2 : s < r := lt_of_le_of_ne h (fun e => hrs e.symm)
        have := excl_molcreate_mono molcreate (s + 1) r h2
        omega
    · intro r
      exact nodup_assign_mol_ids_false molmap nmolecules _ _
  · intro ref h1 h2
    have hm : rebased_ref tagFirst ref = tagFirst + ((ref - 1).toNat : ℤ) := by
      unfold rebased_ref
      omega
    rw [hm]
    unfold member_tags
    have hlt : (ref - 1).toNat < natoms := by omega
    exact List.mem_map_of_mem (fun m : ℕ => tagFirst + (m : ℤ))
      (List.mem_range.mpr hlt)

/-- Evaluation witness for C3 at concrete counts, exercising both the
named-sub-molecule branch (for the offset identity and the lower bound) and
the plain branch (for cross-rank distinctness and the topology rebasing). -/
theorem molecule_id_stitching_witness :
    (moloffset_of 5 (fun _ => 2) 3 = 5 + (excl_molcreate (fun _ => 2) 3 : ℤ)) ∧
    (∀ id ∈ rank_mol_ids true [1, 2] 2 5 (fun _ => 2) 0, (5 : ℤ) < id) ∧
    (∀ id ∈ rank_mol_ids false [1, 2] 2 5 (fun _ => 2) 0,
        id ∉ rank_mol_ids false [1, 2] 2 5 (fun _ => 2) 1) ∧
    (rebased_ref 10 2 ∈ member_tags 10 2) :=
  ⟨(molecule_id_stitching true [1, 2] 2 5 (fun _ => 2) [3, 5] 2 10
      (by decide) (by decide)).1 3,
   fun id hid =>
     (molecule_id_stitching true [1, 2] 2 5 (fun _ => 2) [3, 5] 2 10
       (by decide) (by decide)).2.1 0 id hid,
   fun id hid =>
     ((molecule_id_stitching false [1, 2] 2 5 (fun _ => 2) [3, 5] 2 10
       (by decide) (by decide)).2.2.2.1 rfl).1 0 1 (by decide) id hid,
   (molecule_id_stitching false [1, 2] 2 5 (fun _ => 2) [3, 5] 2 10
     (by decide) (by decide)).2.2.2.2 2 (by decide) (by decide)⟩

/-- Case analysis of one try: either a filter or the overlap consensus
rejected (only the draw counter moves), or the candidate is inserted, in
which case with overlap avoidance on the reduced rejection flag was zero. -/
lemma try_once_spec (C : RandomCtx) (st : RanState) :
    try_once C st = ({ st with idraw := st.idraw + 1 }, false) ∨
    (try_once C st =
        (insert_atom (C.draws st.idraw)
          (if C.triclinic then C.x2lamda (C.draws st.idraw) else C.draws st.idraw)
          { st with idraw := st.idraw + 1 }, true) ∧
      (C.overlapflag = true →
        reject_any C.dsq C.odistsq (C.draws st.idraw) st.ranks = 0)) := by
  unfold try_once
  by_cases h1 : (C.use_region && !(C.region_match (C.draws st.idraw))) = true
  · rw [if_pos h1]
    exact Or.inl rfl
  · rw [if_neg h1]
    by_cases h2 : (C.varflag && !(C.vartest (C.draws st.idraw))) = true
    · rw [if_pos h2]
      exact Or.inl rfl
    · rw [if_neg h2]
      by_cases h3 : (C.triclinic && !(in_subbox C.boxlo C.boxhi
          (if C.triclinic then C.x2lamda (C.draws st.idraw)
            else C.draws st.idraw))) = true
      · rw [if_pos h3]
        exact Or.inl rfl
      · rw [if_neg h3]
        by_cases h4 : (C.overlapflag && decide (reject_any C.dsq C.odistsq
            (C.draws st.idraw) st.ranks ≠ 0)) = true
        · rw [if_pos h4]
          exact Or.inl rfl
        · rw [if_neg h4]
          refine Or.inr ⟨rfl, ?_⟩
          intro hov
          rw [hov, Bool.true_and] at h4
          simp only [decide_eq_true_eq] at h4
          omega

lemma attempt_ninsert (C : RandomCtx) :
    ∀ (fuel : ℕ) (st : RanState),
      st.ninsert ≤ (attempt C fuel st).ninsert ∧
      (attempt C fuel st).ninsert ≤ st.ninsert + 1 := by
  intro fuel
  induction fuel with
  | zero => intro st; exact ⟨le_refl _, Nat.le_succ _⟩
  | succ fuel ih =>
    intro st
    unfold attempt
    rcases try_once_spec C st with h | ⟨h, _⟩
    · rw [h]
      have := ih { st with idraw := st.idraw + 1 }
      simpa using this
    · rw [h]
      simp [insert_atom]

lemma add_random_ninsert_le (C : RandomCtx) (maxtry : ℕ) :
    ∀ (n : ℕ) (st : RanState),
      (add_random C maxtry n st).ninsert ≤ st.ninsert + n := by
  intro n
  induction n with
  | zero => intro st; simp [add_random]
  | succ n ih =>
    intro st
    unfold add_random
    have h1 := ih (attempt C maxtry st)
    have h2 := (attempt_ninsert C maxtry st).2
    omega

/-- C6: random placement with `n_requested = 0` creates nothing and issues no
shortfall warning; in general the non-fatal warning is issued exactly when
strictly fewer entities were successfully placed than requested, the placed
count never exceeding the request, and the run returns normally either way. -/
theorem add_random_zero_and_shortfall (C : RandomCtx) (maxtry nrandom : ℕ)
    (ranks0 : List RankSt) :
    (nrandom = 0 →
      add_random C maxtry nrandom (start_state ranks0) = start_state ranks0 ∧
      (add_random C maxtry nrandom (start_state ranks0)).created = [] ∧
      shortfall_warning
        (add_random C maxtry nrandom (start_state ranks0)).ninsert nrandom
          = false) ∧
    (shortfall_warning
        (add_random C maxtry nrandom (start_state ranks0)).ninsert nrandom
          = true ↔
      (add_random C maxtry nrandom (start_state ranks0)).ninsert < nrandom) ∧
    (add_random C maxtry nrandom (start_state ranks0)).ninsert ≤ nrandom := by
  refine ⟨?_, ?_, ?_⟩
  · rintro rfl
    exact ⟨rfl, rfl, rfl⟩
  · simp [shortfall_warning]
  · have := add_random_ninsert_le C maxtry nrandom (start_state ranks0)
    simpa [start_state] using this

/-- Evaluation witness for C6 at a zero request. -/
theorem add_random_zero_and_shortfall_witness :
    (add_random randW 1 0 (start_state ranksW) = start_state ranksW ∧
      (add_random randW 1 0 (start_state ranksW)).created = [] ∧
      shortfall_warning
        (add_random randW 1 0 (start_state ranksW)).ninsert 0 = false) ∧
    (shortfall_warning
        (add_random randW 1 0 (start_state ranksW)).ninsert 0 = true ↔
      (add_random randW 1 0 (start_state ranksW)).ninsert < 0) ∧
    (add_random randW 1 0 (start_state ranksW)).ninsert ≤ 0 :=
  ⟨(add_random_zero_and_shortfall randW 1 0 ranksW).1 rfl,
   (add_random_zero_and_shortfall randW 1 0 ranksW).2.1,
   (add_random_zero_and_shortfall randW 1 0 ranksW).2.2⟩

lemma foldl_max_eq_zero_iff : ∀ (l : List ℕ) (a : ℕ),
    l.foldl max a = 0 ↔ (a = 0 ∧ ∀ x ∈ l, x = 0) := by
  intro l
  induction l with
  | nil => intro a; simp
  | cons x l ih =>
    intro a
    simp only [List.foldl_cons, ih, List.mem_cons]
    constructor
    · rintro ⟨hmax, hall⟩
      have hx : a = 0 ∧ x = 0 := by omega
      exact ⟨hx.1, fun y hy => hy.elim (fun e => e ▸ hx.2) (hall y)⟩
    · rintro ⟨ha, hall⟩
      have hx : x = 0 := hall x (Or.inl rfl)
      exact ⟨by omega, fun y hy => hall y (Or.inr hy)⟩

lemma local_reject_eq_zero_iff (dsq : V3 → V3 → ℚ) (odistsq : ℚ) (xone : V3)
    (atoms : List V3) :
    local_reject dsq odistsq xone atoms = 0 ↔
      ∀ a ∈ atoms, odistsq ≤ dsq xone a := by
  unfold local_reject
  by_cases h : atoms.any (fun a => decide (dsq xone a < odistsq)) = true
  · rw [if_pos h]
    simp only [List.any_eq_true, decide_eq_true_eq] at h
    rcases h with ⟨a, ha, hlt⟩
    constructor
    · intro h0
      exact absurd h0 one_ne_zero
    · intro hall
      exact absurd (hall a ha) (not_le.mpr hlt)
  · rw [if_neg h]
    simp only [List.any_eq_true, decide_eq_true_eq] at h
    push_neg at h
    exact iff_of_true rfl h

lemma local_reject_zero_or_one (dsq : V3 → V3 → ℚ) (odistsq : ℚ) (xone : V3)
    (atoms : List V3) :
    local_reject dsq odistsq xone atoms = 0 ∨
    local_reject dsq odistsq xone atoms = 1 := by
  unfold local_reject
  split
  · exact Or.inr rfl
  · exact Or.inl rfl

lemma reject_any_eq_zero_iff (dsq : V3 → V3 → ℚ) (odistsq : ℚ) (xone : V3)
    (ranks : List RankSt) :
    reject_any dsq odistsq xone ranks = 0 ↔
      ∀ r ∈ ranks, local_reject dsq odistsq xone r.2 = 0 := by
  unfold reject_any
  rw [foldl_max_eq_zero_iff]
  constructor
  · rintro ⟨-, hall⟩ r hr
    exact hall _ (List.mem_map_of_mem _ hr)
  · intro h
    refine ⟨rfl, ?_⟩
    intro x hx
    rcases List.mem_map.mp hx with ⟨r, hr, rfl⟩
    exact h r hr

/-- The reduced flag is nonzero exactly when some rank's local too-close
flag is set: the MPI_MAX reduction of 0/1 flags is their logical OR. -/
lemma reject_any_ne_zero_iff (dsq : V3 → V3 → ℚ) (odistsq : ℚ) (xone : V3)
    (ranks : List RankSt) :
    reject_any dsq odistsq xone ranks ≠ 0 ↔
      ∃ r ∈ ranks, local_reject dsq odistsq xone r.2 = 1 := by
  rw [Ne, reject_any_eq_zero_iff]
  push_neg
  constructor
  · rintro ⟨r, hr, hne⟩
    rcases local_reject_zero_or_one dsq odistsq xone r.2 with h | h
    · exact absurd h hne
    · exact ⟨r, hr, h⟩
  · rintro ⟨r, hr, hone⟩
    exact ⟨r, hr, by omega⟩

lemma length_filterMap_if {α β : Type} (l : List α) (p : α → Bool) (x : β) :
    (l.filterMap (fun a => if p a then some x else none)).length = l.countP p := by
  induction l with
  | nil => rfl
  | cons a l ih =>
    by_cases h : p a
    · simp [List.filterMap_cons, h, List.countP_cons, ih]
    · simp [List.filterMap_cons, h, List.countP_cons, ih]

lemma mem_filterMap_if {α β : Type} (l : List α) (p : α → Bool) (x : β) (b : β)
    (hb : b ∈ l.filterMap (fun a => if p a then some x else none)) :
    b = x ∧ ∃ a ∈ l, p a = true := by
  rcases List.mem_filterMap.mp hb with ⟨a, ha, hfa⟩
  by_cases h : p a
  · rw [if_pos h] at hfa
    exact ⟨(Option.some_inj.mp hfa).symm, a, ha, h⟩
  · rw [if_neg h] at hfa
    simp at hfa

lemma pairwise_of_length_le_one {α : Type} {R : α → α → Prop} (l : List α)
    (h : l.length ≤ 1) : l.Pairwise R := by
  match l with
  | [] => exact List.Pairwise.nil
  | [a] => simp
  | a :: b :: t => simp at h

lemma insert_atom_created (xone coord : V3) (st : RanState) :
    (insert_atom xone coord st).created = st.created ++
      st.ranks.filterMap
        (fun r => if in_subbox r.1.1 r.1.2 coord then some xone else none) := rfl

lemma insert_atom_ranks (xone coord : V3) (st : RanState) :
    (insert_atom xone coord st).ranks = st.ranks.map
      (fun r => if in_subbox r.1.1 r.1.2 coord then (r.1, r.2 ++ [xone]) else r) := rfl

lemma insert_atom_bounds (xone coord : V3) (st : RanState) :
    (insert_atom xone coord st).bounds = st.bounds := by
  unfold RanState.bounds
  rw [insert_atom_ranks, List.map_map]
  apply List.map_congr_left
  intro r _
  simp only [Function.comp]
  split <;> rfl

lemma countP_ranks_bounds (st : RanState) (coord : V3) :
    st.ranks.countP (fun r => in_subbox r.1.1 r.1.2 coord) =
      st.bounds.countP (fun b => in_subbox b.1 b.2 coord) := by
  unfold RanState.bounds
  rw [List.countP_map]
  rfl

lemma insert_atom_separated (C : RandomCtx) (xone coord : V3) (st : RanState)
    (hsym : ∀ a b : V3, C.dsq a b = C.dsq b a)
    (hone : st.ranks.countP (fun r => in_subbox r.1.1 r.1.2 coord) ≤ 1)
    (hrej : ∀ r ∈ st.ranks, ∀ a ∈ r.2, C.odistsq ≤ C.dsq xone a)
    (hsep : Separated C st) :
    Separated C (insert_atom xone coord st) := by
  obtain ⟨hpw, hmem⟩ := hsep
  constructor
  · rw [insert_atom_created, List.pairwise_append]
    refine ⟨hpw, ?_, ?_⟩
    · apply pairwise_of_length_le_one
      rw [length_filterMap_if]
      exact hone
    · intro a ha b hb
      obtain ⟨rfl, -⟩ := mem_filterMap_if _ _ _ b hb
      rcases hmem a ha with ⟨r, hr, har⟩
      rw [hsym]
      exact hrej r hr a har
  · intro a ha
    rw [insert_atom_created] at ha
    rw [insert_atom_ranks]
    rcases List.mem_append.mp ha with ha | ha
    · rcases hmem a ha with ⟨r, hr, har⟩
      refine ⟨(if in_subbox r.1.1 r.1.2 coord then (r.1, r.2 ++ [xone]) else r),
        List.mem_map_of_mem _ hr, ?_⟩
      split
      · exact List.mem_append_left _ har
      · exact har
    · obtain ⟨rfl, r, hr, hro⟩ := mem_filterMap_if _ _ _ a ha
      refine ⟨(r.1, r.2 ++ [a]), ?_,
        List.mem_append_right _ (List.mem_singleton.mpr rfl)⟩
      have hm := List.mem_map_of_mem
        (fun s => if in_subbox s.1.1 s.1.2 coord then (s.1, s.2 ++ [a]) else s) hr
      dsimp only at hm
      rw [if_pos hro] at hm
      exact hm

lemma try_once_inv (C : RandomCtx) (bounds0 : List (V3 × V3))
    (hov : C.overlapflag = true) (hsym : ∀ a b : V3, C.dsq a b = C.dsq b a)
    (hone : at_most_one_owner bounds0) (st : RanState)
    (hinv : RunInv C bounds0 st) : RunInv C bounds0 (try_once C st).1 := by
  rcases try_once_spec C st with h | ⟨h, hrej⟩
  · rw [h]
    exact hinv
  · rw [h]
    obtain ⟨hb, hsep⟩ := hinv
    have hrej0 := hrej hov
    have hall : ∀ r ∈ st.ranks, ∀ a ∈ r.2,
        C.odistsq ≤ C.dsq (C.draws st.idraw) a := by
      intro r hr a ha
      have h0 := (reject_any_eq_zero_iff C.dsq C.odistsq
        (C.draws st.idraw) st.ranks).mp hrej0 r hr
      exact (local_reject_eq_zero_iff C.dsq C.odistsq
        (C.draws st.idraw) r.2).mp h0 a ha
    constructor
    · rw [insert_atom_bounds]
      exact hb
    · apply insert_atom_separated C _ _ _ hsym _ hall hsep
      rw [countP_ranks_bounds]
      show st.bounds.countP _ ≤ 1
      rw [hb]
      exact hone _

lemma attempt_inv (C : RandomCtx) (bounds0 : List (V3 × V3))
    (hov : C.overlapflag = true) (hsym : ∀ a b : V3, C.dsq a b = C.dsq b a)
    (hone : at_most_one_owner bounds0) :
    ∀ (fuel : ℕ) (st : RanState),
      RunInv C bounds0 st → RunInv C bounds0 (attempt C fuel st) := by
  intro fuel
  induction fuel with
  | zero => intro st h; exact h
  | succ fuel ih =>
    intro st h
    unfold attempt
    split
    · exact try_once_inv C bounds0 hov hsym hone st h
    · exact ih _ (try_once_inv C bounds0 hov hsym hone st h)

lemma add_random_inv (C : RandomCtx) (bounds0 : List (V3 × V3)) (maxtry : ℕ)
    (hov : C.overlapflag = true) (hsym : ∀ a b : V3, C.dsq a b = C.dsq b a)
    (hone : at_most_one_owner bounds0) :
    ∀ (n : ℕ) (st : RanState),
      RunInv C bounds0 st → RunInv C bounds0 (add_random C maxtry n st) := by
  intro n
  induction n with
  | zero => intro st h; exact h
  | succ n ih =>
    intro st h
    unfold add_random
    exact ih _ (attempt_inv C bounds0 hov hsym hone maxtry st h)

/-- C2: after a random-placement run with overlap avoidance on, every pair of
distinct created entities — including pairs created by different ranks, all
collected in the ghost list `created` — is separated by at least the
configured threshold (squared distance at least `odistsq`, the user distance
expanded by the molecule radius and squared); and the rejection decision is
the MPI_MAX (logical-OR) reduction of the per-rank too-close flags, each
computed against that rank's locally stored atoms. -/
theorem add_random_overlap_invariant (C : RandomCtx) (maxtry nrandom : ℕ)
    (ranks0 : List RankSt) (overlap molradius : ℚ) (isMol : Bool)
    (hov : C.overlapflag = true)
    (hsym : ∀ a b : V3, C.dsq a b = C.dsq b a)
    (hone : at_most_one_owner (ranks0.map (fun r => r.1)))
    (hod : C.odistsq = odistsq_of overlap molradius isMol) :
    (∀ i j : Fin (add_random C maxtry nrandom (start_state ranks0)).created.length,
        i ≠ j →
        odistsq_of overlap molradius isMol ≤
          C.dsq ((add_random C maxtry nrandom (start_state ranks0)).created.get i)
            ((add_random C maxtry nrandom (start_state ranks0)).created.get j)) ∧
    (∀ (xone : V3) (ranks : List RankSt),
      (reject_any C.dsq C.odistsq xone ranks ≠ 0 ↔
        ∃ r ∈ ranks, local_reject C.dsq C.odistsq xone r.2 = 1)) := by
  constructor
  · have hinv0 : RunInv C (ranks0.map (fun r => r.1)) (start_state ranks0) :=
      ⟨rfl, List.Pairwise.nil, by intro a ha; simp [start_state] at ha⟩
    have hinv := add_random_inv C (ranks0.map (fun r => r.1)) maxtry hov hsym hone
      nrandom (start_state ranks0) hinv0
    have hpw := hinv.2.1
    rw [List.pairwise_iff_get] at hpw
    intro i j hij
    rcases Nat.lt_trichotomy i.1 j.1 with h | h | h
    · exact hod ▸ hpw i j h
    · exact absurd (Fin.ext h) hij
    · rw [hsym]
      exact hod ▸ hpw j i h
  · intro xone ranks
    exact reject_any_ne_zero_iff C.dsq C.odistsq xone ranks

lemma at_most_one_owner_singleton (b : V3 × V3) : at_most_one_owner [b] := by
  intro c
  by_cases h : in_subbox b.1 b.2 c
  · simp [List.countP_cons, h]
  · simp [List.countP_cons, h]

/-- Evaluation witness for C2 at the concrete context and its single rank. -/
theorem add_random_overlap_invariant_witness :
    (∀ i j : Fin (add_random randW 1 1 (start_state ranksW)).created.length,
        i ≠ j →
        odistsq_of 0 0 false ≤
          randW.dsq ((add_random randW 1 1 (start_state ranksW)).created.get i)
            ((add_random randW 1 1 (start_state ranksW)).created.get j)) ∧
    (∀ (xone : V3) (ranks : List RankSt),
      (reject_any randW.dsq randW.odistsq xone ranks ≠ 0 ↔
        ∃ r ∈ ranks, local_reject randW.dsq randW.odistsq xone r.2 = 1)) :=
  add_random_overlap_invariant randW 1 1 ranksW 0 0 false rfl
    (fun a b => rfl)
    (at_most_one_owner_singleton _)
    (by simp [randW, odistsq_of])

end CreateAtomsModel

